import Mathlib

/-!
Verification of the trial-engine logic of the artificial grammar learning
experiment (`artificial_grammar_experiment.py`).

Python strings are modelled as lists of characters (`PyStr`), timestamps as
rationals, key events as `(key name, timestamp)` pairs, and the PsychoPy
collaborators (`event.getKeys`, `event.waitKeys`) as explicit input data:
a list of polled batches for the training phase, and an optional-head list
for the bounded test-phase wait.
-/

namespace ArtificialGrammar

/-- A Python string, modelled as a list of characters. -/
abbrev PyStr := List Char

/-- Python `str.strip()`: remove leading and trailing whitespace characters. -/
def pyStrip (s : PyStr) : PyStr :=
  ((s.dropWhile Char.isWhitespace).reverse.dropWhile Char.isWhitespace).reverse

/-- Python `str.upper()` applied to a key name (characterwise ASCII upper-casing). -/
def pyUpper (s : PyStr) : PyStr := s.map Char.toUpper

/-- The key name of the commit ("submit") event, `'return'` in the source. -/
def returnKey : PyStr := "return".toList

/-- The key name of the delete-last-character event, `'backspace'` in the source. -/
def backspaceKey : PyStr := "backspace".toList

/-- State of the training-phase collection loop (source lines 193–222):
`trial` is the response buffer (list of appended characters), `RT` the
reaction time registered so far, `response` the loop-continuation flag. -/
structure CollectState where
  trial : List Char
  RT : Option ℚ
  response : Bool
deriving DecidableEq, Repr

/-- Dispatch of one timestamped key event (source lines 208–218):
`'return'` registers the reaction time and clears the loop flag;
`'backspace'` pops the last buffer element if the buffer is non-empty;
any single-character key is upper-cased and appended; other keys are ignored. -/
def handleKey (st : CollectState) (ev : PyStr × ℚ) : CollectState :=
  if ev.1 = returnKey then
    { st with RT := some ev.2, response := false }
  else if ev.1 = backspaceKey then
    if st.trial = [] then st else { st with trial := st.trial.dropLast }
  else if ev.1.length = 1 then
    { st with trial := st.trial ++ pyUpper ev.1 }
  else st

/-- Process every event of one polled batch, in order (the `for key, time_ in
keys` loop, which does not break when the commit event is seen). -/
def processBatch (st : CollectState) (keys : List (PyStr × ℚ)) : CollectState :=
  keys.foldl handleKey st

/-- Initial collection state of an attempt (source lines 193–198). -/
def collectInit : CollectState := ⟨[], none, true⟩

/-- The `while response == True` loop, fed the successive batches returned by
`event.getKeys`: the loop exits right after the batch that cleared the flag;
if the supplied batches are exhausted with the flag still set, the real loop
would poll forever, which we model as `none`. -/
def collectLoop : CollectState → List (List (PyStr × ℚ)) → Option CollectState
  | st, [] => if st.response then none else some st
  | st, b :: bs => if st.response then collectLoop (processBatch st b) bs else some st

/-- Run the collection loop of one training attempt from the initial state. -/
def collectTraining (batches : List (List (PyStr × ℚ))) : Option CollectState :=
  collectLoop collectInit batches

/-- One row of the training-phase results (source lines 234–240). -/
structure TrainingRecord where
  block : ℕ
  stimulus : PyStr
  response : PyStr
  accuracy : ℕ
  RT : Option ℚ
deriving DecidableEq, Repr

/-- One training attempt (source lines 185–240): collect a response, compare
`training_stimulus == participant_response.strip()`, and build the record;
the returned flag is `repeat` (true means the stimulus is re-presented). -/
def runTrainingAttempt (block : ℕ) (training_stimulus : PyStr)
    (batches : List (List (PyStr × ℚ))) : Option (TrainingRecord × Bool) :=
  (collectTraining batches).map (fun st =>
    let participant_response := st.trial
    if training_stimulus = pyStrip participant_response then
      (⟨block, training_stimulus, participant_response, 1, st.RT⟩, false)
    else
      (⟨block, training_stimulus, participant_response, 0, st.RT⟩, true))

/-- The `while repeat` loop for a single stimulus, fed the batch lists of the
participant's successive attempts: one record per attempt, stopping at the
first correct attempt; the returned flag is the final value of `repeat`
(true means the loop is still waiting for a further attempt). -/
def runTrainingStimulus (block : ℕ) (training_stimulus : PyStr) :
    List (List (List (PyStr × ℚ))) → Option (List TrainingRecord × Bool)
  | [] => some ([], true)
  | a :: as =>
    match runTrainingAttempt block training_stimulus a with
    | none => none
    | some (r, false) => some ([r], false)
    | some (r, true) =>
      (runTrainingStimulus block training_stimulus as).map
        (fun p => (r :: p.1, p.2))

/-- One row of the test-phase results (source lines 295–302). -/
structure TestRecord where
  stimulus : PyStr
  grammar_rule : ℤ
  key_pressed : Option PyStr
  correct_key : PyStr
  accuracy : ℕ
  RT : Option ℚ
deriving DecidableEq, Repr

/-- `key_options = ["J","F"]` (source line 256). -/
def key_options : List PyStr := ["J".toList, "F".toList]

/-- One test-phase trial (source lines 259–302): `key_response` is the value
returned by the bounded wait (`None` modelled as `[]`, otherwise the list of
captured timestamped keys); scoring branches on `grammar_rule == 0`, takes
the first captured key, upper-cases it and compares to the selected key. -/
def runTestTrial (test_stimulus : PyStr) (grammar_rule : ℤ)
    (key_response : List (PyStr × ℚ)) : TestRecord :=
  if grammar_rule = 0 then
    let correct_key := "J".toList
    match key_response with
    | (k, t) :: _ =>
      let key_pressed := pyUpper k
      { stimulus := test_stimulus, grammar_rule := grammar_rule,
        key_pressed := some key_pressed, correct_key := correct_key,
        accuracy := if key_pressed = correct_key then 1 else 0, RT := some t }
    | [] =>
      { stimulus := test_stimulus, grammar_rule := grammar_rule,
        key_pressed := none, correct_key := correct_key,
        accuracy := 0, RT := none }
  else
    let correct_key := "F".toList
    match key_response with
    | (k, t) :: _ =>
      let key_pressed := pyUpper k
      { stimulus := test_stimulus, grammar_rule := grammar_rule,
        key_pressed := some key_pressed, correct_key := correct_key,
        accuracy := if key_pressed = correct_key then 1 else 0, RT := some t }
    | [] =>
      { stimulus := test_stimulus, grammar_rule := grammar_rule,
        key_pressed := none, correct_key := correct_key,
        accuracy := 0, RT := none }

/-- Observable I/O events of a phase, as far as persistence is concerned:
appending a trial record to the in-memory results list, and rewriting the
phase's CSV file. -/
inductive TraceEv where
  | appendRecord : TraceEv
  | writeCsv : TraceEv
deriving DecidableEq, Repr

/-- Persistence trace of the training phase for a given number of attempts:
the source appends the record and immediately rewrites the CSV inside the
attempt loop (lines 234–244). -/
def trainingPhaseTrace (attempts : ℕ) : List TraceEv :=
  (List.replicate attempts [TraceEv.appendRecord, TraceEv.writeCsv]).flatten

/-- Persistence trace of the test phase for a given number of items:
the source appends one record per item inside the loop (lines 295–302) and
rewrites the CSV once, after the loop (lines 305–306). -/
def testPhaseTrace (items : ℕ) : List TraceEv :=
  (List.replicate items [TraceEv.appendRecord]).flatten ++ [TraceEv.writeCsv]

/-- Scan of a trace: `pending` records whether some appended record has not
yet been covered by a CSV write; the scan fails if a second record is
appended while one is pending, or if the trace ends with a pending record. -/
def perTrialPersistedAux : Bool → List TraceEv → Bool
  | pending, [] => !pending
  | _, TraceEv.writeCsv :: rest => perTrialPersistedAux false rest
  | pending, TraceEv.appendRecord :: rest =>
    if pending then false else perTrialPersistedAux true rest

/-- A trace persists per trial when every appended record is followed by a
CSV write before the next record is appended (and before the trace ends). -/
def perTrialPersisted (tr : List TraceEv) : Bool :=
  perTrialPersistedAux false tr

/-! ### Helper lemmas -/

/-- ASCII upper-casing never produces a lower-case letter. -/
theorem toUpper_isLower_false (c : Char) : (Char.toUpper c).isLower = false := by
  unfold Char.toUpper
  by_cases h : c.toNat ≥ 97 ∧ c.toNat ≤ 122
  · simp only [if_pos h]
    obtain ⟨h1, h2⟩ := h
    interval_cases h3 : c.toNat <;> decide
  · simp only [if_neg h]
    simp only [Char.isLower]
    by_contra hc
    rw [Bool.not_eq_false, Bool.and_eq_true] at hc
    obtain ⟨ha, hb⟩ := hc
    exact h ⟨UInt32.le_toNat_of_le (by decide) (of_decide_eq_true ha),
      UInt32.toNat_le_of_le (by decide) (of_decide_eq_true hb)⟩

/-- Stripping only removes characters: membership is preserved downwards. -/
theorem mem_of_mem_pyStrip {c : Char} {s : PyStr} (h : c ∈ pyStrip s) : c ∈ s := by
  unfold pyStrip at h
  rw [List.mem_reverse] at h
  have h2 := (List.dropWhile_sublist _).mem h
  rw [List.mem_reverse] at h2
  exact (List.dropWhile_sublist _).mem h2

/-- Any predicate preserved by one key event is preserved by a batch. -/
theorem processBatch_pres (P : CollectState → Prop)
    (hP : ∀ st ev, P st → P (handleKey st ev)) :
    ∀ (ks : List (PyStr × ℚ)) (st : CollectState), P st → P (processBatch st ks) := by
  intro ks
  induction ks with
  | nil => intro st h; exact h
  | cons ev ks ih =>
    intro st h
    exact ih (handleKey st ev) (hP st ev h)

/-- Any predicate preserved by one key event is carried by the collection
loop to its final state. -/
theorem collectLoop_pres (P : CollectState → Prop)
    (hP : ∀ st ev, P st → P (handleKey st ev)) :
    ∀ (bs : List (List (PyStr × ℚ))) (st st' : CollectState),
      collectLoop st bs = some st' → P st → P st' := by
  intro bs
  induction bs with
  | nil =>
    intro st st' h hp
    unfold collectLoop at h
    by_cases hr : st.response
    · simp [hr] at h
    · simp [hr] at h
      exact h ▸ hp
  | cons b bs ih =>
    intro st st' h hp
    unfold collectLoop at h
    by_cases hr : st.response
    · simp only [hr, if_true] at h
      exact ih _ _ h (processBatch_pres P hP b st hp)
    · simp only [hr] at h
      simp at h
      exact h ▸ hp

/-- The collection loop only ever returns a state whose loop flag is cleared. -/
theorem collectLoop_response (bs : List (List (PyStr × ℚ))) :
    ∀ st st', collectLoop st bs = some st' → st'.response = false := by
  induction bs with
  | nil =>
    intro st st' h
    unfold collectLoop at h
    by_cases hr : st.response
    · simp [hr] at h
    · simp [hr] at h
      rw [← h]
      exact Bool.eq_false_iff.mpr hr
  | cons b bs ih =>
    intro st st' h
    unfold collectLoop at h
    by_cases hr : st.response
    · simp only [hr, if_true] at h
      exact ih _ _ h
    · simp only [hr] at h
      simp at h
      rw [← h]
      exact Bool.eq_false_iff.mpr hr

/-- A returned collection state always has a registered reaction time:
the flag is cleared only by the commit event, which also sets `RT`. -/
theorem collectTraining_RT_isSome (batches : List (List (PyStr × ℚ)))
    (st : CollectState) (h : collectTraining batches = some st) :
    st.RT.isSome = true := by
  have hinv : st.response = false → st.RT.isSome = true := by
    refine collectLoop_pres (fun s => s.response = false → s.RT.isSome = true)
      ?_ batches collectInit st h ?_
    · intro s ev hp
      unfold handleKey
      by_cases h1 : ev.1 = returnKey
      · simp [h1]
      · by_cases h2 : ev.1 = backspaceKey
        · simp only [h1, if_false, h2, if_true]
          by_cases h3 : s.trial = [] <;> simp [h3] <;> exact hp
        · by_cases h3 : ev.1.length = 1 <;> simp [h1, h2, h3] <;> exact hp
    · intro hfalse
      simp [collectInit] at hfalse
  exact hinv (collectLoop_response batches collectInit st h)

/-- Characterization of a successful training attempt (source lines 185–240). -/
theorem runTrainingAttempt_some {block : ℕ} {s : PyStr}
    {a : List (List (PyStr × ℚ))} {r : TrainingRecord} {rep : Bool}
    (h : runTrainingAttempt block s a = some (r, rep)) :
    ∃ st, collectTraining a = some st ∧ r.block = block ∧ r.stimulus = s ∧
      r.response = st.trial ∧ r.RT = st.RT ∧
      ((s = pyStrip st.trial ∧ r.accuracy = 1 ∧ rep = false) ∨
        (s ≠ pyStrip st.trial ∧ r.accuracy = 0 ∧ rep = true)) := by
  unfold runTrainingAttempt at h
  cases hc : collectTraining a with
  | none => rw [hc] at h; simp at h
  | some st =>
    rw [hc] at h
    simp only [Option.map_some', Option.some.injEq] at h
    by_cases he : s = pyStrip st.trial
    · simp only [if_pos he] at h
      rw [Prod.ext_iff] at h
      obtain ⟨hr, hrep⟩ := h
      subst hr
      exact ⟨st, rfl, rfl, rfl, rfl, rfl, Or.inl ⟨he, rfl, hrep.symm⟩⟩
    · simp only [if_neg he] at h
      rw [Prod.ext_iff] at h
      obtain ⟨hr, hrep⟩ := h
      subst hr
      exact ⟨st, rfl, rfl, rfl, rfl, rfl, Or.inr ⟨he, rfl, hrep.symm⟩⟩

/-- Every record produced for a stimulus comes from one of the supplied
attempts, with the matching repeat flag. -/
theorem runTrainingStimulus_records {block : ℕ} {s : PyStr} :
    ∀ {atts : List (List (List (PyStr × ℚ)))} {recs : List TrainingRecord} {rep : Bool},
      runTrainingStimulus block s atts = some (recs, rep) →
      ∀ r ∈ recs, ∃ a ∈ atts, ∃ rep1, runTrainingAttempt block s a = some (r, rep1) := by
  intro atts
  induction atts with
  | nil =>
    intro recs rep h r hr
    simp only [runTrainingStimulus, Option.some.injEq, Prod.ext_iff] at h
    obtain ⟨h1, _⟩ := h
    rw [← h1] at hr
    simp at hr
  | cons a as ih =>
    intro recs rep h r hr
    simp only [runTrainingStimulus] at h
    cases hA : runTrainingAttempt block s a with
    | none => rw [hA] at h; simp at h
    | some p =>
      rw [hA] at h
      obtain ⟨r1, rep1⟩ := p
      cases rep1 with
      | false =>
        simp only [Option.some.injEq, Prod.ext_iff] at h
        obtain ⟨h1, _⟩ := h
        rw [← h1] at hr
        rw [List.mem_singleton] at hr
        exact ⟨a, List.mem_cons_self a as, false, hr ▸ hA⟩
      | true =>
        cases hR : runTrainingStimulus block s as with
        | none => rw [hR] at h; simp at h
        | some q =>
          rw [hR] at h
          obtain ⟨recs1, rep2⟩ := q
          simp only [Option.map_some', Option.some.injEq, Prod.ext_iff] at h
          obtain ⟨h1, _⟩ := h
          rw [← h1] at hr
          rcases List.mem_cons.mp hr with h2 | h2
          · exact ⟨a, List.mem_cons_self a as, true, h2 ▸ hA⟩
          · obtain ⟨a2, ha2, rep3, h3⟩ := ih hR r h2
            exact ⟨a2, List.mem_cons_of_mem a ha2, rep3, h3⟩

/-- C1: a training attempt records accuracy 1 exactly when the stimulus text
equals the trimmed response buffer (case-sensitive string equality, hence
same length); in every other case the recorded accuracy is 0. -/
theorem training_accuracy_iff_exact_match {block : ℕ} {s : PyStr}
    {a : List (List (PyStr × ℚ))} {r : TrainingRecord} {rep : Bool}
    (h : runTrainingAttempt block s a = some (r, rep)) :
    (r.accuracy = 1 ↔ s = pyStrip r.response) ∧
    (¬s = pyStrip r.response → r.accuracy = 0) := by
  obtain ⟨st, _, _, _, hresp, _, hcase⟩ := runTrainingAttempt_some h
  rcases hcase with ⟨heq, hacc, _⟩ | ⟨hne, hacc, _⟩
  · rw [hacc, hresp]
    exact ⟨⟨fun _ => heq, fun _ => rfl⟩, fun hc => absurd heq hc⟩
  · rw [hacc, hresp]
    exact ⟨⟨fun h0 => absurd h0 (by decide), fun hc => absurd hc hne⟩, fun _ => rfl⟩

/-- C1 witness: typing `X` then committing, against stimulus `AB`, yields
accuracy 0; the exact-match criterion decides it. -/
theorem training_accuracy_iff_exact_match_witness :
    runTrainingAttempt 1 ("AB".toList) [[(("x".toList : PyStr), (2 : ℚ)), (returnKey, 3)]] =
      some (⟨1, "AB".toList, "X".toList, 0, some 3⟩, true) ∧
    ¬("AB".toList : PyStr) = pyStrip ("X".toList) ∧
    (⟨1, "AB".toList, "X".toList, 0, some 3⟩ : TrainingRecord).accuracy = 0 := by
  refine ⟨by decide, by decide, ?_⟩
  exact (@training_accuracy_iff_exact_match 1 ("AB".toList)
    [[(("x".toList : PyStr), (2 : ℚ)), (returnKey, 3)]]
    ⟨1, "AB".toList, "X".toList, 0, some 3⟩ true (by decide)).2 (by decide)

/-- C9: every training record carries a present reaction time — the
collection loop only ends on a commit event, which always sets `RT`. -/
theorem training_RT_always_present {block : ℕ} {s : PyStr}
    {atts : List (List (List (PyStr × ℚ)))} {recs : List TrainingRecord} {rep : Bool}
    (h : runTrainingStimulus block s atts = some (recs, rep)) :
    ∀ r ∈ recs, r.RT.isSome = true := by
  intro r hr
  obtain ⟨a, _, rep1, hA⟩ := runTrainingStimulus_records h r hr
  obtain ⟨st, hc, _, _, _, hRT, _⟩ := runTrainingAttempt_some hA
  rw [hRT]
  exact collectTraining_RT_isSome a st hc

/-- C9 witness: a concrete single-attempt run whose record has a present
reaction time. -/
theorem training_RT_always_present_witness :
    runTrainingStimulus 1 ("A".toList) [[[(returnKey, (2 : ℚ))]]] =
      some ([⟨1, "A".toList, [], 0, some 2⟩], true) ∧
    (⟨1, "A".toList, [], 0, some 2⟩ : TrainingRecord).RT.isSome = true := by
  refine ⟨by decide, ?_⟩
  exact @training_RT_always_present 1 ("A".toList) [[[(returnKey, (2 : ℚ))]]]
    [⟨1, "A".toList, [], 0, some 2⟩] true (by decide) _ (List.mem_singleton.mpr rfl)

/-- C8: dispatch of a non-commit event during collection — a backspace drops
the most recently appended character (a no-op on the empty buffer), a
single-character key is upper-cased and appended, and any other multi-character
key name leaves the state unchanged. -/
theorem training_event_dispatch (st : CollectState) (k : PyStr) (t : ℚ) :
    (k = backspaceKey → (handleKey st (k, t)).trial = st.trial.dropLast) ∧
    (k = backspaceKey → st.trial = [] → handleKey st (k, t) = st) ∧
    (∀ c : Char, k = [c] → (handleKey st (k, t)).trial = st.trial ++ [c.toUpper]) ∧
    (k ≠ returnKey → k ≠ backspaceKey → k.length ≠ 1 → handleKey st (k, t) = st) := by
  refine ⟨?_, ?_, ?_, ?_⟩
  · intro hk
    subst hk
    unfold handleKey
    dsimp only
    rw [if_neg (by decide), if_pos rfl]
    by_cases h3 : st.trial = []
    · rw [if_pos h3, h3]
      rfl
    · rw [if_neg h3]
  · intro hk he
    subst hk
    unfold handleKey
    dsimp only
    rw [if_neg (by decide), if_pos rfl, if_pos he]
  · intro c hk
    subst hk
    have hne1 : ¬([c] : PyStr) = returnKey := by
      intro hcon
      have h6 := congrArg List.length hcon
      rw [List.length_singleton] at h6
      exact absurd h6 (by decide)
    have hne2 : ¬([c] : PyStr) = backspaceKey := by
      intro hcon
      have h6 := congrArg List.length hcon
      rw [List.length_singleton] at h6
      exact absurd h6 (by decide)
    unfold handleKey
    dsimp only
    rw [if_neg hne1, if_neg hne2, if_pos (List.length_singleton c)]
    rfl
  · intro h1 h2 h3
    unfold handleKey
    dsimp only
    rw [if_neg h1, if_neg h2, if_neg h3]

/-- C8 witness: concrete instances of the three dispatch branches. -/
theorem training_event_dispatch_witness :
    (handleKey ⟨['A', 'B'], none, true⟩ (backspaceKey, 1)).trial = ['A'] ∧
    handleKey ⟨[], none, true⟩ (backspaceKey, 1) = ⟨[], none, true⟩ ∧
    (handleKey ⟨['A'], none, true⟩ (("b".toList : PyStr), 1)).trial = ['A', 'B'] ∧
    handleKey ⟨['A'], none, true⟩ (("space".toList : PyStr), 1) = ⟨['A'], none, true⟩ := by
  refine ⟨?_, ?_, ?_, ?_⟩
  · exact (training_event_dispatch ⟨['A', 'B'], none, true⟩ backspaceKey 1).1 rfl
  · exact ((training_event_dispatch ⟨[], none, true⟩ backspaceKey 1).2.1) rfl rfl
  · exact ((training_event_dispatch ⟨['A'], none, true⟩ ("b".toList) 1).2.2.1) 'b' rfl
  · exact ((training_event_dispatch ⟨['A'], none, true⟩ ("space".toList) 1).2.2.2)
      (by decide) (by decide) (by decide)

/-- C2: a test trial records accuracy 1 exactly when a key was captured and
its upper-cased form equals the trial's correct key; an absent response is
recorded with `key_pressed = none`, while a captured key (right or wrong)
is recorded as the concrete upper-cased character. -/
theorem test_accuracy_iff_correct_key (s : PyStr) (g : ℤ) (kr : List (PyStr × ℚ)) :
    ((runTestTrial s g kr).accuracy = 1 ↔
      ∃ k t rest, kr = (k, t) :: rest ∧ pyUpper k = (runTestTrial s g kr).correct_key) ∧
    ((runTestTrial s g kr).key_pressed = none ↔ kr = []) ∧
    (∀ k t rest, kr = (k, t) :: rest →
      (runTestTrial s g kr).key_pressed = some (pyUpper k)) ∧
    ((runTestTrial s g kr).accuracy = 1 ∨ (runTestTrial s g kr).accuracy = 0) := by
  by_cases hg : g = 0 <;> cases kr with
  | nil => simp [runTestTrial, hg]
  | cons ev rest =>
    obtain ⟨k, t⟩ := ev
    by_cases hk : pyUpper k = (runTestTrial s g ((k, t) :: rest)).correct_key <;>
      simp_all [runTestTrial, hg]

/-- C2 witness: pressing lower-case `f` on a rule-1 item scores 1 with the
captured key recorded as `F`; an absent response is recorded as `none`. -/
theorem test_accuracy_iff_correct_key_witness :
    (runTestTrial ("PELSOT".toList) 1 [(("f".toList : PyStr), 2)]).accuracy = 1 ∧
    (runTestTrial ("PELSOT".toList) 1 [(("f".toList : PyStr), 2)]).key_pressed =
      some ("F".toList) ∧
    (runTestTrial ("PELSOT".toList) 1 []).key_pressed = none := by
  refine ⟨?_, ?_, ?_⟩
  · exact (test_accuracy_iff_correct_key ("PELSOT".toList) 1
      [(("f".toList : PyStr), 2)]).1.mpr ⟨"f".toList, 2, [], rfl, by decide⟩
  · exact (test_accuracy_iff_correct_key ("PELSOT".toList) 1
      [(("f".toList : PyStr), 2)]).2.2.1 ("f".toList) 2 [] rfl
  · exact (test_accuracy_iff_correct_key ("PELSOT".toList) 1 []).2.1.mpr rfl

/-- C6: the correct key is chosen by a zero-versus-non-zero test on the rule
label — label 0 selects `J`, every non-zero label (not only 1) selects `F`. -/
theorem correct_key_zero_nonzero (s : PyStr) (g : ℤ) (kr : List (PyStr × ℚ)) :
    (g = 0 → (runTestTrial s g kr).correct_key = "J".toList) ∧
    (g ≠ 0 → (runTestTrial s g kr).correct_key = "F".toList) := by
  by_cases hg : g = 0 <;> cases kr <;> simp [runTestTrial, hg]

/-- C6 witness: a rule label of 2 (non-zero, not 1) still selects `F`. -/
theorem correct_key_zero_nonzero_witness :
    (runTestTrial ("X".toList) 0 []).correct_key = "J".toList ∧
    (runTestTrial ("X".toList) 2 []).correct_key = "F".toList := by
  refine ⟨?_, ?_⟩
  · exact (correct_key_zero_nonzero ("X".toList) 0 []).1 rfl
  · exact (correct_key_zero_nonzero ("X".toList) 2 []).2 (by decide)

/-- C7: assuming the bounded wait only yields events timestamped inside its
window, the recorded test reaction time is absent exactly when no key was
captured, and otherwise lies in `[0, 6]` on the trial-local clock. -/
theorem test_RT_bounded (s : PyStr) (g : ℤ) (kr : List (PyStr × ℚ))
    (hw : ∀ ev ∈ kr, 0 ≤ ev.2 ∧ ev.2 ≤ 6) :
    ((runTestTrial s g kr).RT = none ↔ kr = []) ∧
    ∀ t, (runTestTrial s g kr).RT = some t → 0 ≤ t ∧ t ≤ 6 := by
  by_cases hg : g = 0 <;> cases kr with
  | nil => simp [runTestTrial, hg]
  | cons ev rest =>
    obtain ⟨k, t0⟩ := ev
    have hb := hw (k, t0) (List.mem_cons_self _ _)
    simp only [runTestTrial, hg]
    simp_all

/-- C7 witness: a key captured at time 3 inside the window gives a present
reaction time within the deadline; discharges the window hypothesis. -/
theorem test_RT_bounded_witness :
    (∀ ev ∈ ([(("f".toList : PyStr), (3 : ℚ))]), 0 ≤ ev.2 ∧ ev.2 ≤ 6) ∧
    (0 ≤ (3 : ℚ) ∧ (3 : ℚ) ≤ 6) := by
  refine ⟨by decide, ?_⟩
  exact (test_RT_bounded ("X".toList) 1 [(("f".toList : PyStr), 3)] (by decide)).2 3 rfl

/-- Shape of the records produced for one stimulus: at most one record per
supplied attempt; while the loop keeps repeating every record has accuracy 0
(and every attempt produced a record); the loop has advanced exactly when the
final record is the first one with accuracy 1. -/
theorem runTrainingStimulus_shape {block : ℕ} {s : PyStr} :
    ∀ {atts : List (List (List (PyStr × ℚ)))} {recs : List TrainingRecord} {rep : Bool},
      runTrainingStimulus block s atts = some (recs, rep) →
      recs.length ≤ atts.length ∧
      (rep = true → recs.length = atts.length ∧ ∀ r ∈ recs, r.accuracy = 0) ∧
      (rep = false → ∃ pre rlast, recs = pre ++ [rlast] ∧ rlast.accuracy = 1 ∧
        ∀ r ∈ pre, r.accuracy = 0) := by
  intro atts
  induction atts with
  | nil =>
    intro recs rep h
    simp only [runTrainingStimulus, Option.some.injEq, Prod.ext_iff] at h
    obtain ⟨h1, h2⟩ := h
    subst h1
    subst h2
    refine ⟨Nat.le_refl 0, fun _ => ⟨rfl, by simp⟩, fun hf => by simp at hf⟩
  | cons a as ih =>
    intro recs rep h
    simp only [runTrainingStimulus] at h
    cases hA : runTrainingAttempt block s a with
    | none => rw [hA] at h; simp at h
    | some p =>
      rw [hA] at h
      obtain ⟨r1, rep1⟩ := p
      obtain ⟨st, _, _, _, _, _, hcase⟩ := runTrainingAttempt_some hA
      cases rep1 with
      | false =>
        simp only [Option.some.injEq, Prod.ext_iff] at h
        obtain ⟨h1, h2⟩ := h
        subst h1
        subst h2
        have hacc : r1.accuracy = 1 := by
          rcases hcase with ⟨_, h4, _⟩ | ⟨_, _, h5⟩
          · exact h4
          · simp at h5
        refine ⟨by simp, fun ht => by simp at ht, fun _ => ⟨[], r1, rfl, hacc, by simp⟩⟩
      | true =>
        have hacc : r1.accuracy = 0 := by
          rcases hcase with ⟨_, _, h4⟩ | ⟨_, h5, _⟩
          · simp at h4
          · exact h5
        cases hR : runTrainingStimulus block s as with
        | none => rw [hR] at h; simp at h
        | some q =>
          rw [hR] at h
          obtain ⟨recs1, rep2⟩ := q
          simp only [Option.map_some', Option.some.injEq, Prod.ext_iff] at h
          obtain ⟨h1, h2⟩ := h
          subst h1
          subst h2
          obtain ⟨ihle, ihtrue, ihfalse⟩ := ih hR
          refine ⟨Nat.succ_le_succ ihle, ?_, ?_⟩
          · intro ht
            obtain ⟨hl, hall⟩ := ihtrue ht
            refine ⟨by simp [hl], ?_⟩
            intro r hr
            rcases List.mem_cons.mp hr with h6 | h6
            · exact h6 ▸ hacc
            · exact hall r h6
          · intro hf
            obtain ⟨pre, rlast, hdec, hlacc, hpre⟩ := ihfalse hf
            refine ⟨r1 :: pre, rlast, by rw [hdec]; rfl, hlacc, ?_⟩
            intro r hr
            rcases List.mem_cons.mp hr with h6 | h6
            · exact h6 ▸ hacc
            · exact hpre r h6

/-- Feeding the same failing attempt `n` times yields `n` identical records
and a loop that is still repeating — for every `n`. -/
theorem runTrainingStimulus_replicate {block : ℕ} {s : PyStr}
    {a : List (List (PyStr × ℚ))} {r1 : TrainingRecord}
    (hA : runTrainingAttempt block s a = some (r1, true)) :
    ∀ n, runTrainingStimulus block s (List.replicate n a) =
      some (List.replicate n r1, true) := by
  intro n
  induction n with
  | zero => rfl
  | succ n ihn =>
    rw [List.replicate_succ, List.replicate_succ]
    simp only [runTrainingStimulus]
    rw [hA, ihn]
    rfl

/-- C3: for one training stimulus, each attempt appends exactly one record:
while still repeating there is one accuracy-0 record per attempt, the engine
advances exactly at the first accuracy-1 record, and there is no retry cap —
any number of failing attempts keeps the loop repeating with one record each. -/
theorem training_one_record_per_attempt (block : ℕ) (s : PyStr)
    (atts : List (List (List (PyStr × ℚ)))) (recs : List TrainingRecord) (rep : Bool)
    (h : runTrainingStimulus block s atts = some (recs, rep)) :
    recs.length ≤ atts.length ∧
    (rep = true → recs.length = atts.length ∧ ∀ r ∈ recs, r.accuracy = 0) ∧
    (rep = false → ∃ pre rlast, recs = pre ++ [rlast] ∧ rlast.accuracy = 1 ∧
      ∀ r ∈ pre, r.accuracy = 0) ∧
    (∀ (a : List (List (PyStr × ℚ))) (r1 : TrainingRecord),
      runTrainingAttempt block s a = some (r1, true) →
      ∀ n, runTrainingStimulus block s (List.replicate n a) =
        some (List.replicate n r1, true)) := by
  obtain ⟨h1, h2, h3⟩ := runTrainingStimulus_shape h
  exact ⟨h1, h2, h3, fun a r1 hA n => runTrainingStimulus_replicate hA n⟩

/-- C3 witness: a failing attempt (types `X`) then a correct attempt (types
`AB`) against stimulus `AB` — two records, accuracies 0 then 1, advanced. -/
theorem training_one_record_per_attempt_witness :
    runTrainingStimulus 1 ("AB".toList)
      [[[(("x".toList : PyStr), (1 : ℚ)), (returnKey, 2)]],
        [[(("a".toList : PyStr), (1 : ℚ)), (("b".toList : PyStr), 2), (returnKey, 3)]]] =
      some ([⟨1, "AB".toList, "X".toList, 0, some 2⟩,
        ⟨1, "AB".toList, "AB".toList, 1, some 3⟩], false) ∧
    ∃ pre rlast,
      ([⟨1, "AB".toList, "X".toList, 0, some 2⟩,
        ⟨1, "AB".toList, "AB".toList, 1, some 3⟩] : List TrainingRecord) =
        pre ++ [rlast] ∧ rlast.accuracy = 1 ∧ ∀ r ∈ pre, r.accuracy = 0 := by
  refine ⟨by decide, ?_⟩
  exact (training_one_record_per_attempt 1 ("AB".toList)
    [[[(("x".toList : PyStr), (1 : ℚ)), (returnKey, 2)]],
      [[(("a".toList : PyStr), (1 : ℚ)), (("b".toList : PyStr), 2), (returnKey, 3)]]]
    [⟨1, "AB".toList, "X".toList, 0, some 2⟩,
      ⟨1, "AB".toList, "AB".toList, 1, some 3⟩] false (by decide)).2.2.1 rfl

/-- One key event never puts a lower-case letter into the buffer: appended
characters pass through `upper()`, and the other branches only remove. -/
theorem handleKey_noLower (st : CollectState) (ev : PyStr × ℚ)
    (hp : ∀ c ∈ st.trial, c.isLower = false) :
    ∀ c ∈ (handleKey st ev).trial, c.isLower = false := by
  unfold handleKey
  by_cases h1 : ev.1 = returnKey
  · rw [if_pos h1]
    exact hp
  · rw [if_neg h1]
    by_cases h2 : ev.1 = backspaceKey
    · rw [if_pos h2]
      by_cases h3 : st.trial = []
      · rw [if_pos h3]
        exact hp
      · rw [if_neg h3]
        intro c hc
        exact hp c ((List.dropLast_sublist st.trial).mem hc)
    · rw [if_neg h2]
      by_cases h3 : ev.1.length = 1
      · rw [if_pos h3]
        intro c hc
        rcases List.mem_append.mp hc with h4 | h4
        · exact hp c h4
        · obtain ⟨d, _, hd2⟩ := List.mem_map.mp h4
          rw [← hd2]
          exact toUpper_isLower_false d
      · rw [if_neg h3]
        exact hp

/-- If the stimulus contains a lower-case letter, every terminating attempt
is scored 0 and keeps the repeat flag, because the buffer that is evaluated
can never contain a lower-case letter. -/
theorem attempt_wrong_of_lower {block : ℕ} {s : PyStr}
    {a : List (List (PyStr × ℚ))} {r : TrainingRecord} {rep : Bool}
    (hs : ∃ c ∈ s, c.isLower = true)
    (h : runTrainingAttempt block s a = some (r, rep)) :
    rep = true ∧ r.accuracy = 0 := by
  obtain ⟨st, hc, _, _, _, _, hcase⟩ := runTrainingAttempt_some h
  have hnl : ∀ c ∈ st.trial, c.isLower = false := by
    refine collectLoop_pres (fun s2 => ∀ c ∈ s2.trial, c.isLower = false)
      handleKey_noLower a collectInit st hc ?_
    intro c hc2
    simp [collectInit] at hc2
  rcases hcase with ⟨heq, _, _⟩ | ⟨_, hacc, hrep⟩
  · obtain ⟨c, hcs, hcl⟩ := hs
    rw [heq] at hcs
    have h5 := hnl c (mem_of_mem_pyStrip hcs)
    rw [hcl] at h5
    cases h5
  · exact ⟨hrep, hacc⟩

/-- C10: the training response buffer never contains a lower-case letter
under any sequence of input events, so a stimulus containing a lower-case
letter can never be matched: every record for it has accuracy 0 and the
repeat loop never advances. -/
theorem training_buffer_never_lowercase :
    (∀ evs : List (PyStr × ℚ), ∀ c ∈ (processBatch collectInit evs).trial,
      c.isLower = false) ∧
    (∀ s : PyStr, (∃ c ∈ s, c.isLower = true) →
      ∀ block atts recs rep, runTrainingStimulus block s atts = some (recs, rep) →
        rep = true ∧ ∀ r ∈ recs, r.accuracy = 0) := by
  constructor
  · intro evs
    refine processBatch_pres (fun s2 => ∀ c ∈ s2.trial, c.isLower = false)
      handleKey_noLower evs collectInit ?_
    intro c hc2
    simp [collectInit] at hc2
  · intro s hs block atts recs rep h
    have hall : ∀ r ∈ recs, r.accuracy = 0 := by
      intro r hr
      obtain ⟨a, _, rep1, hA⟩ := runTrainingStimulus_records h r hr
      exact (attempt_wrong_of_lower hs hA).2
    refine ⟨?_, hall⟩
    by_contra hrep
    have hf : rep = false := by
      cases rep with
      | false => rfl
      | true => exact absurd rfl hrep
    obtain ⟨pre, rlast, hdec, hlacc, _⟩ := (runTrainingStimulus_shape h).2.2 hf
    have h7 : rlast.accuracy = 0 := by
      refine hall rlast ?_
      rw [hdec]
      exact List.mem_append_right _ (List.mem_singleton.mpr rfl)
    rw [hlacc] at h7
    cases h7

/-- C10 witness: stimulus `ab` (lower-case); an empty committed attempt
leaves the loop repeating with an accuracy-0 record. -/
theorem training_buffer_never_lowercase_witness :
    (∃ c ∈ ("ab".toList : PyStr), c.isLower = true) ∧
    runTrainingStimulus 1 ("ab".toList) [[[(returnKey, (2 : ℚ))]]] =
      some ([⟨1, "ab".toList, [], 0, some 2⟩], true) ∧
    (true = true ∧ ∀ r ∈ ([⟨1, "ab".toList, [], 0, some 2⟩] : List TrainingRecord),
      r.accuracy = 0) := by
  refine ⟨by decide, by decide, ?_⟩
  exact training_buffer_never_lowercase.2 ("ab".toList) (by decide) 1
    [[[(returnKey, (2 : ℚ))]]] [⟨1, "ab".toList, [], 0, some 2⟩] true (by decide)

/-- C4 counterexample: against stimulus `A`, a batch containing the commit
event at time 1 followed by key `a` at time 2 yields the evaluated buffer
`A` (accuracy 1), whereas the same batch without the post-commit event
yields the empty buffer (accuracy 0) — an input event after the commit event
in the same polled batch does modify the buffer that is evaluated. -/
theorem commit_batch_counterexample :
    runTrainingAttempt 1 ("A".toList)
      [[(returnKey, (1 : ℚ)), (("a".toList : PyStr), 2)]] =
      some (⟨1, "A".toList, "A".toList, 1, some 1⟩, false) ∧
    runTrainingAttempt 1 ("A".toList) [[(returnKey, (1 : ℚ))]] =
      some (⟨1, "A".toList, [], 0, some 1⟩, true) := by
  exact ⟨by decide, by decide⟩

/-- Once the loop flag is cleared, no later event sets it again. -/
theorem handleKey_response_mono (st : CollectState) (ev : PyStr × ℚ)
    (h : st.response = false) : (handleKey st ev).response = false := by
  unfold handleKey
  by_cases h1 : ev.1 = returnKey
  · rw [if_pos h1]
  · rw [if_neg h1]
    by_cases h2 : ev.1 = backspaceKey
    · rw [if_pos h2]
      by_cases h3 : st.trial = []
      · rw [if_pos h3]
        exact h
      · rw [if_neg h3]
        exact h
    · rw [if_neg h2]
      by_cases h3 : ev.1.length = 1
      · rw [if_pos h3]
        exact h
      · rw [if_neg h3]
        exact h

/-- A batch containing a commit event leaves the loop flag cleared. -/
theorem processBatch_return_response :
    ∀ (b : List (PyStr × ℚ)) (st : CollectState),
      (∃ ev ∈ b, ev.1 = returnKey) → (processBatch st b).response = false := by
  intro b
  induction b with
  | nil =>
    intro st hret
    simp at hret
  | cons ev b ih =>
    intro st hret
    by_cases h1 : ev.1 = returnKey
    · have h2 : (handleKey st ev).response = false := by
        unfold handleKey
        rw [if_pos h1]
      exact processBatch_pres (fun s2 => s2.response = false)
        handleKey_response_mono b (handleKey st ev) h2
    · rcases hret with ⟨ev2, hm, hr2⟩
      rcases List.mem_cons.mp hm with h3 | h3
      · exact absurd (h3 ▸ hr2) h1
      · exact ih (handleKey st ev) ⟨ev2, h3, hr2⟩

/-- A state with a cleared flag ends the collection loop at once. -/
theorem collectLoop_done (st : CollectState) (h : st.response = false) :
    ∀ bs, collectLoop st bs = some st := by
  intro bs
  cases bs with
  | nil => simp [collectLoop, h]
  | cons b bs => simp [collectLoop, h]

/-- An event other than the commit event never changes `RT`. -/
theorem handleKey_RT_of_ne (st : CollectState) (ev : PyStr × ℚ)
    (h : ¬ev.1 = returnKey) : (handleKey st ev).RT = st.RT := by
  unfold handleKey
  rw [if_neg h]
  by_cases h2 : ev.1 = backspaceKey
  · rw [if_pos h2]
    by_cases h3 : st.trial = []
    · rw [if_pos h3]
    · rw [if_neg h3]
  · rw [if_neg h2]
    by_cases h3 : ev.1.length = 1
    · rw [if_pos h3]
    · rw [if_neg h3]

/-- A batch without a commit event leaves `RT` untouched. -/
theorem processBatch_RT_of_no_return :
    ∀ (b : List (PyStr × ℚ)) (st : CollectState),
      (∀ ev ∈ b, ¬ev.1 = returnKey) → (processBatch st b).RT = st.RT := by
  intro b
  induction b with
  | nil => intro st _; rfl
  | cons ev b ih =>
    intro st hne
    have h1 : processBatch st (ev :: b) = processBatch (handleKey st ev) b := rfl
    rw [h1, ih _ (fun e he => hne e (List.mem_cons_of_mem ev he)),
      handleKey_RT_of_ne st ev (hne ev (List.mem_cons_self ev b))]

/-- C4 amended: a commit event terminates collection at the end of the
current polled batch — no later batch is polled, and the recorded reaction
time is the timestamp of the last commit event of that batch; events after
the commit event inside the same batch are still processed. -/
theorem commit_terminates_after_batch (st : CollectState) (b : List (PyStr × ℚ))
    (bs : List (List (PyStr × ℚ))) (hresp : st.response = true)
    (hret : ∃ ev ∈ b, ev.1 = returnKey) :
    collectLoop st (b :: bs) = some (processBatch st b) ∧
    (∀ b1 b2 t, b = b1 ++ (returnKey, t) :: b2 →
      (∀ ev ∈ b2, ¬ev.1 = returnKey) → (processBatch st b).RT = some t) := by
  constructor
  · have hr : (processBatch st b).response = false := processBatch_return_response b st hret
    show collectLoop st (b :: bs) = some (processBatch st b)
    unfold collectLoop
    rw [if_pos hresp]
    exact collectLoop_done _ hr bs
  · intro b1 b2 t hb hne
    rw [hb]
    unfold processBatch
    rw [List.foldl_append, List.foldl_cons]
    have h2 : (processBatch (handleKey (List.foldl handleKey st b1) (returnKey, t)) b2).RT =
        (handleKey (List.foldl handleKey st b1) (returnKey, t)).RT :=
      processBatch_RT_of_no_return b2 _ hne
    rw [show List.foldl handleKey (handleKey (List.foldl handleKey st b1) (returnKey, t)) b2 =
      processBatch (handleKey (List.foldl handleKey st b1) (returnKey, t)) b2 from rfl, h2]
    unfold handleKey
    rw [if_pos rfl]

/-- C4 amended witness: a batch holding only the commit event at time 5,
followed by a further batch that is never polled. -/
theorem commit_terminates_after_batch_witness :
    (collectInit.response = true ∧
      ∃ ev ∈ ([(returnKey, (5 : ℚ))] : List (PyStr × ℚ)), ev.1 = returnKey) ∧
    collectLoop collectInit [[(returnKey, (5 : ℚ))], [(("a".toList : PyStr), 9)]] =
      some (processBatch collectInit [(returnKey, (5 : ℚ))]) ∧
    (processBatch collectInit [(returnKey, (5 : ℚ))]).RT = some 5 := by
  refine ⟨⟨rfl, ⟨(returnKey, 5), List.mem_singleton.mpr rfl, rfl⟩⟩, ?_, ?_⟩
  · exact (commit_terminates_after_batch collectInit [(returnKey, 5)]
      [[(("a".toList : PyStr), 9)]] rfl
      ⟨(returnKey, 5), List.mem_singleton.mpr rfl, rfl⟩).1
  · exact (commit_terminates_after_batch collectInit [(returnKey, 5)]
      [[(("a".toList : PyStr), 9)]] rfl
      ⟨(returnKey, 5), List.mem_singleton.mpr rfl, rfl⟩).2 [] [] 5 rfl (by simp)

/-- C5 counterexample: with two test items, the second record is appended
while the first has not yet been written — the test phase is not persisted
per trial. -/
theorem per_trial_persistence_counterexample :
    perTrialPersisted (testPhaseTrace 2) = false := by
  decide

/-- The test-phase trace is all its records followed by one CSV write. -/
theorem testPhaseTrace_eq (n : ℕ) :
    testPhaseTrace n = List.replicate n TraceEv.appendRecord ++ [TraceEv.writeCsv] := by
  unfold testPhaseTrace
  congr 1
  induction n with
  | zero => rfl
  | succ n ih =>
    rw [List.replicate_succ, List.replicate_succ, List.flatten_cons, ih]
    rfl

/-- C5 amended: the training phase persists after every attempt and before
the next one; the test phase appends all records and writes the CSV exactly
once, after the loop, so with two or more items it is not persisted per
trial. -/
theorem persistence_training_per_attempt_test_at_end (n : ℕ) :
    perTrialPersisted (trainingPhaseTrace n) = true ∧
    testPhaseTrace n = List.replicate n TraceEv.appendRecord ++ [TraceEv.writeCsv] ∧
    (2 ≤ n → perTrialPersisted (testPhaseTrace n) = false) := by
  refine ⟨?_, testPhaseTrace_eq n, ?_⟩
  · induction n with
    | zero => rfl
    | succ n ih =>
      have h1 : trainingPhaseTrace (n + 1) =
          TraceEv.appendRecord :: TraceEv.writeCsv :: trainingPhaseTrace n := by
        unfold trainingPhaseTrace
        rw [List.replicate_succ, List.flatten_cons]
        rfl
      rw [h1]
      exact ih
  · intro h2
    obtain ⟨m, rfl⟩ : ∃ m, n = m + 2 := ⟨n - 2, by omega⟩
    have he : testPhaseTrace (m + 2) = TraceEv.appendRecord :: TraceEv.appendRecord ::
        (List.replicate m TraceEv.appendRecord ++ [TraceEv.writeCsv]) := by
      rw [testPhaseTrace_eq]
      have h3 : m + 2 = (m + 1) + 1 := by omega
      rw [h3, List.replicate_succ, List.replicate_succ]
      rfl
    rw [he]
    rfl

/-- C5 amended witness: at three test items, the per-trial condition fails. -/
theorem persistence_training_per_attempt_test_at_end_witness :
    (2 ≤ 3 ∧ perTrialPersisted (testPhaseTrace 3) = false) ∧
    perTrialPersisted (trainingPhaseTrace 3) = true := by
  refine ⟨⟨by decide, ?_⟩, ?_⟩
  · exact (persistence_training_per_attempt_test_at_end 3).2.2 (by decide)
  · exact (persistence_training_per_attempt_test_at_end 3).1

end ArtificialGrammar
